import Mathlib

/-!
Verification development for the BluePyOpt example notebooks
(`examples/expsyn/ExpSyn_arbor.ipynb` and the NeuroML export notebook).

The notebooks configure and invoke the library's single-objective
evolutionary parameter optimiser (`bpopt.optimisations.DEAPOptimisation`)
and the evaluator pipeline (`CellEvaluator`, `ObjectivesCalculator`,
`SingletonObjective`, `eFELFeature`).  The optimiser and evaluator code
itself is library code of the repository that is not among the staged
source files; following the specification document, it is modelled here
as an explicit state-passing evolutionary loop with an explicitly
threaded pseudo-random generator, rational-valued genes and fitnesses,
per-gene bound pairs maintained by clipping, a bounded hall of fame, a
per-generation statistics log, and an evaluated-individuals history.
-/

namespace BluePyOpt

/-- Modelled from the spec: the explicit pseudo-random generator instance
owned by the optimiser (spec design note: "an explicit pseudo-random
generator instance owned by the Optimizer and threaded explicitly into
every stochastic operation"). A linear congruential generator state. -/
structure RNG where
  state : Nat
deriving DecidableEq

/-- Modelled from the spec: one step of the pseudo-random generator,
returning a draw in `[0, 2^31)` together with the successor state. -/
def rngNext (r : RNG) : Nat × RNG :=
  ((1103515245 * r.state + 12345) % 2 ^ 31,
   ⟨(1103515245 * r.state + 12345) % 2 ^ 31⟩)

/-- Modelled from the spec: clipping a gene value into its bound pair
(spec: "out-of-range values are clipped or resampled, never silently
left invalid"). -/
def clip (lo hi v : ℚ) : ℚ := max lo (min v hi)

/-- Modelled from the spec: a uniform draw inside a bound pair, from a raw
generator output `n < 2^31` (spec: "each gene drawn uniformly at random
within its bound pair"). -/
def genValue (lo hi : ℚ) (n : Nat) : ℚ :=
  lo + (hi - lo) * ((n : ℚ) / 2 ^ 31)

/-- Modelled from the spec: the displacement a mutation applies to one gene,
scaled to the width of its bound pair. -/
def mutDelta (lo hi : ℚ) (n : Nat) : ℚ :=
  (hi - lo) * ((n : ℚ) / 2 ^ 31 - 1 / 2) / 10

/-- Modelled from the spec: a blend-crossover of two parent gene values with
a random weight, clipped into the bound pair. -/
def blend (lo hi x y : ℚ) (n : Nat) : ℚ :=
  clip lo hi (((n : ℚ) / 2 ^ 31) * x + (1 - (n : ℚ) / 2 ^ 31) * y)

/-- Modelled from the spec: the sentinel worst-case fitness an individual
receives when its evaluation fails (spec: "reported as a sentinel
worst-case fitness, logged, and the generation continues"). -/
def sentinelFitness : ℚ := 10 ^ 9

/-- Modelled from the spec: an Individual is the pairing of a Parameter
Vector (its genes) with its Fitness Vector; in the single-objective use
of this repository the fitness is one scalar error value. -/
structure Individual where
  genes : List ℚ
  fitness : ℚ
deriving DecidableEq

/-- One gene value lying inside one bound pair. -/
def inBound (b : ℚ × ℚ) (v : ℚ) : Prop := b.1 ≤ v ∧ v ≤ b.2

/-- A Parameter Vector lying inside the configured bound pairs, gene by
gene (spec invariant: `lo_i ≤ value_i ≤ hi_i` for all `i`). -/
def InB (bounds : List (ℚ × ℚ)) (gs : List ℚ) : Prop :=
  List.Forall₂ inBound bounds gs

/-- Every bound pair is well formed (`lo ≤ hi`). -/
def validBounds (bounds : List (ℚ × ℚ)) : Prop :=
  ∀ b ∈ bounds, b.1 ≤ b.2

/-- Modelled from the spec: initial draw of one Parameter Vector, one
uniform draw per bound pair, threading the generator. -/
def drawGenes : List (ℚ × ℚ) → RNG → List ℚ × RNG
  | [], r => ([], r)
  | b :: bs, r =>
      (genValue b.1 b.2 (rngNext r).1 :: (drawGenes bs (rngNext r).2).1,
       (drawGenes bs (rngNext r).2).2)

/-- Modelled from the spec: mutation of a Parameter Vector, one random
displacement per gene, each result clipped into its bound pair. -/
def mutateGenes : List (ℚ × ℚ) → List ℚ → RNG → List ℚ × RNG
  | b :: bs, v :: vs, r =>
      (clip b.1 b.2 (v + mutDelta b.1 b.2 (rngNext r).1) ::
        (mutateGenes bs vs (rngNext r).2).1,
       (mutateGenes bs vs (rngNext r).2).2)
  | _, _, r => ([], r)

/-- Modelled from the spec: crossover of two parent Parameter Vectors, one
random blend per gene, each result clipped into its bound pair. -/
def crossoverGenes : List (ℚ × ℚ) → List ℚ → List ℚ → RNG → List ℚ × RNG
  | b :: bs, x :: xs, y :: ys, r =>
      (blend b.1 b.2 x y (rngNext r).1 ::
        (crossoverGenes bs xs ys (rngNext r).2).1,
       (crossoverGenes bs xs ys (rngNext r).2).2)
  | _, _, _, r => ([], r)

/-- Modelled from the spec: scoring one Parameter Vector through the
Fitness Evaluator; a failed evaluation (`none`, the simulation does not
converge or produces non-finite output) yields the sentinel worst-case
fitness instead of aborting. -/
def evaluateIndividual (fitEval : List ℚ → Option ℚ) (g : List ℚ) : Individual :=
  { genes := g, fitness := (fitEval g).getD sentinelFitness }

/-- Modelled from the spec: scoring every individual of a generation. -/
def evaluatePopulation (fitEval : List ℚ → Option ℚ) (pop : List (List ℚ)) :
    List Individual :=
  pop.map (evaluateIndividual fitEval)

/-- The fitness values of a list of individuals. -/
def fitnessValues (l : List Individual) : List ℚ := l.map Individual.fitness

/-- Smallest entry of a list of rationals (0 for the empty list). -/
def listMin : List ℚ → ℚ
  | [] => 0
  | x :: xs => xs.foldl min x

/-- Largest entry of a list of rationals (0 for the empty list). -/
def listMax : List ℚ → ℚ
  | [] => 0
  | x :: xs => xs.foldl max x

/-- Mean of a list of rationals (0 for the empty list). -/
def listMean (l : List ℚ) : ℚ := l.sum / l.length

/-- The winner of a size-two tournament between the individuals at the two
random indices, with a default individual for the out-of-range case. -/
def pickFitter (pop : List Individual) (d : Individual) (a b : Nat) : List ℚ :=
  if (pop.getD (a % pop.length) d).fitness ≤ (pop.getD (b % pop.length) d).fitness
  then (pop.getD (a % pop.length) d).genes
  else (pop.getD (b % pop.length) d).genes

/-- Modelled from the spec: tournament parent selection ("rank/select
parents (e.g., tournament or rank-based selection)"), threading two
generator draws. -/
def tournamentSelect : List Individual → RNG → List ℚ × RNG
  | [], r => ([], (rngNext (rngNext r).2).2)
  | p :: ps, r =>
      (pickFitter (p :: ps) p (rngNext r).1 (rngNext (rngNext r).2).1,
       (rngNext (rngNext r).2).2)

/-- Modelled from the spec: producing one offspring Parameter Vector:
select two parents, cross them over, mutate the child, clipping at every
step so the bound pairs are respected. -/
def makeChild (bounds : List (ℚ × ℚ)) (pop : List Individual) (r : RNG) :
    List ℚ × RNG :=
  mutateGenes bounds
    (crossoverGenes bounds (tournamentSelect pop r).1
      (tournamentSelect pop (tournamentSelect pop r).2).1
      (tournamentSelect pop (tournamentSelect pop r).2).2).1
    (crossoverGenes bounds (tournamentSelect pop r).1
      (tournamentSelect pop (tournamentSelect pop r).2).1
      (tournamentSelect pop (tournamentSelect pop r).2).2).2

/-- Modelled from the spec: variation, producing the next generation of the
configured size from the current evaluated population. -/
def varyPopulation (bounds : List (ℚ × ℚ)) (pop : List Individual) :
    Nat → RNG → List (List ℚ) × RNG
  | 0, r => ([], r)
  | k + 1, r =>
      ((makeChild bounds pop r).1 ::
        (varyPopulation bounds pop k (makeChild bounds pop r).2).1,
       (varyPopulation bounds pop k (makeChild bounds pop r).2).2)

/-- Modelled from the spec: drawing the initial Population of the
configured size, each gene uniform inside its bound pair. -/
def initPopulation (bounds : List (ℚ × ℚ)) : Nat → RNG → List (List ℚ) × RNG
  | 0, r => ([], r)
  | k + 1, r =>
      ((drawGenes bounds r).1 :: (initPopulation bounds k (drawGenes bounds r).2).1,
       (initPopulation bounds k (drawGenes bounds r).2).2)

/-- Fitness of the first (best) hall-of-fame entry; 0 for an empty hall. -/
def hofBestFit : List Individual → ℚ
  | [] => 0
  | i :: _ => i.fitness

/-- Modelled from the spec: ordered insertion into the hall of fame, best
(smallest) fitness first, with the stable insertion-order tie-break
(an equal-fitness newcomer goes after the earlier-found entry). -/
def hofInsert (i : Individual) : List Individual → List Individual
  | [] => [i]
  | h :: t => if i.fitness < h.fitness then i :: h :: t else h :: hofInsert i t

/-- Modelled from the spec: the hall-of-fame merge step after a
generation's evaluation: insert every individual of the generation in
order, then truncate to the configured capacity (eviction of the worst
entries when capacity is exceeded). -/
def hofUpdate (cap : Nat) (hof gen : List Individual) : List Individual :=
  (gen.foldl (fun acc i => hofInsert i acc) hof).take cap

/-- Modelled from the spec: one record of the generation-by-generation
statistics log (min/max/mean of fitness per generation), extended with
the hall-of-fame best fitness and size after this generation's update. -/
structure StatsRecord where
  genSize : Nat
  minFit : ℚ
  maxFit : ℚ
  meanFit : ℚ
  hofBest : ℚ
  hofSize : Nat
deriving DecidableEq

/-- The statistics record written after one generation's evaluation and
hall-of-fame update. -/
def genStats (evaluated hof2 : List Individual) : StatsRecord :=
  { genSize := evaluated.length
    minFit := listMin (fitnessValues evaluated)
    maxFit := listMax (fitnessValues evaluated)
    meanFit := listMean (fitnessValues evaluated)
    hofBest := hofBestFit hof2
    hofSize := hof2.length }

/-- Modelled from the spec: the configuration the `DEAPOptimisation`
constructor and `optimisation.run` consume: "{population size, max
generations, random seed, per-gene bounds}", with the parameter-name
lists of the Parameter Vector and of the Evaluator, and the bounded
hall-of-fame capacity. The population size is an integer so that the
"zero or negative population size" configuration error is expressible. -/
structure OptConfig where
  offspring_size : ℤ
  max_ngen : Nat
  bounds : List (ℚ × ℚ)
  param_names : List String
  evaluator_param_names : List String
  hof_capacity : Nat
  seed : Nat
deriving DecidableEq

/-- The configured population size as a natural number. -/
def popN (cfg : OptConfig) : Nat := cfg.offspring_size.toNat

/-- Modelled from the spec: the fatal configuration-error taxonomy:
"malformed bound pairs (lo > hi), mismatched parameter-name sets between
Parameter Vector and Evaluator, zero or negative population size". -/
inductive ConfigError where
  | badPopulationSize
  | malformedBounds
  | nameMismatch
deriving DecidableEq

/-- Modelled from the spec: configuration validation, performed before any
generation executes; it aborts the run with a `ConfigError` and touches
no evaluator. -/
def validateConfig (cfg : OptConfig) : Except ConfigError Unit :=
  if cfg.offspring_size ≤ 0 then .error .badPopulationSize
  else if ∃ b ∈ cfg.bounds, b.2 < b.1 then .error .malformedBounds
  else if cfg.param_names = cfg.evaluator_param_names then .ok ()
  else .error .nameMismatch

/-- Modelled from the spec: the optimiser's loop state: the not yet
evaluated offspring, the last fully evaluated population, the hall of
fame, the generator state, the statistics log, the evaluated-individuals
history and the generation counter. -/
structure LoopState where
  pending : List (List ℚ)
  population : List Individual
  hof : List Individual
  rng : RNG
  logbook : List StatsRecord
  history : List Individual
  gen : Nat
deriving DecidableEq

/-- Modelled from the spec: one cycle of the generation loop
(Evaluating → Selecting → Varying, incrementing the generation counter):
score the pending offspring, merge them into the hall of fame, append the
statistics record, breed the next offspring. -/
def generationStep (fitEval : List ℚ → Option ℚ) (cfg : OptConfig)
    (st : LoopState) : LoopState :=
  { pending := (varyPopulation cfg.bounds (evaluatePopulation fitEval st.pending)
      (popN cfg) st.rng).1
    population := evaluatePopulation fitEval st.pending
    hof := hofUpdate cfg.hof_capacity st.hof (evaluatePopulation fitEval st.pending)
    rng := (varyPopulation cfg.bounds (evaluatePopulation fitEval st.pending)
      (popN cfg) st.rng).2
    logbook := st.logbook ++
      [genStats (evaluatePopulation fitEval st.pending)
        (hofUpdate cfg.hof_capacity st.hof (evaluatePopulation fitEval st.pending))]
    history := st.history ++ evaluatePopulation fitEval st.pending
    gen := st.gen + 1 }

/-- Modelled from the spec: the generation loop, running until the
generation counter reaches the configured maximum. -/
def runLoop (fitEval : List ℚ → Option ℚ) (cfg : OptConfig) :
    Nat → LoopState → LoopState
  | 0, st => st
  | n + 1, st => runLoop fitEval cfg n (generationStep fitEval cfg st)

/-- Modelled from the spec: the Initialized state: the initial population
is drawn from the seed, nothing is evaluated yet. -/
def initState (cfg : OptConfig) : LoopState :=
  { pending := (initPopulation cfg.bounds (popN cfg) ⟨cfg.seed⟩).1
    population := []
    hof := []
    rng := (initPopulation cfg.bounds (popN cfg) ⟨cfg.seed⟩).2
    logbook := []
    history := []
    gen := 0 }

/-- Modelled from the spec: the output of `optimisation.run` on
termination: "final Population, Hall of Fame (best individuals found,
ordered best-first), generation-by-generation statistics log ... and the
record of evaluated-individuals history". -/
structure RunResult where
  population : List Individual
  hall_of_fame : List Individual
  logbook : List StatsRecord
  history : List Individual
  generations : Nat
deriving DecidableEq

/-- Modelled from the spec: the whole optimisation run on a validated
configuration. -/
def runBody (fitEval : List ℚ → Option ℚ) (cfg : OptConfig) : RunResult :=
  { population := (runLoop fitEval cfg cfg.max_ngen (initState cfg)).population
    hall_of_fame := (runLoop fitEval cfg cfg.max_ngen (initState cfg)).hof
    logbook := (runLoop fitEval cfg cfg.max_ngen (initState cfg)).logbook
    history := (runLoop fitEval cfg cfg.max_ngen (initState cfg)).history
    generations := (runLoop fitEval cfg cfg.max_ngen (initState cfg)).gen }

/-- Modelled from the spec: `optimisation.run`: validate the configuration
first ("fails fast ... before any computation is wasted"), then run the
generation loop. -/
def run (fitEval : List ℚ → Option ℚ) (cfg : OptConfig) :
    Except ConfigError RunResult :=
  match validateConfig cfg with
  | .error e => .error e
  | .ok () => .ok (runBody fitEval cfg)

/-! ### Basic lemmas about the random draws, clipping and gene operations -/

theorem rngNext_lt (r : RNG) : (rngNext r).1 < 2 ^ 31 :=
  Nat.mod_lt _ (by norm_num)

theorem clip_mem (lo hi v : ℚ) (hlh : lo ≤ hi) :
    lo ≤ clip lo hi v ∧ clip lo hi v ≤ hi := by
  unfold clip
  exact ⟨le_max_left _ _, max_le hlh (min_le_right _ _)⟩

theorem inBound_clip (b : ℚ × ℚ) (v : ℚ) (h : b.1 ≤ b.2) :
    inBound b (clip b.1 b.2 v) :=
  clip_mem b.1 b.2 v h

theorem genValue_mem (lo hi : ℚ) (n : Nat) (hlh : lo ≤ hi) (hn : n < 2 ^ 31) :
    lo ≤ genValue lo hi n ∧ genValue lo hi n ≤ hi := by
  have h0 : (0 : ℚ) ≤ (n : ℚ) / 2 ^ 31 := by positivity
  have h1 : ((n : ℚ) / 2 ^ 31) ≤ 1 := by
    rw [div_le_one (by positivity)]
    exact_mod_cast hn.le
  constructor
  · have hge : 0 ≤ (hi - lo) * ((n : ℚ) / 2 ^ 31) := mul_nonneg (by linarith) h0
    simp only [genValue]
    linarith
  · have hle : (hi - lo) * ((n : ℚ) / 2 ^ 31) ≤ (hi - lo) * 1 :=
      mul_le_mul_of_nonneg_left h1 (by linarith)
    simp only [genValue]
    linarith

theorem inBound_genValue (b : ℚ × ℚ) (n : Nat) (h : b.1 ≤ b.2) (hn : n < 2 ^ 31) :
    inBound b (genValue b.1 b.2 n) :=
  genValue_mem b.1 b.2 n h hn

theorem InB_length {bounds : List (ℚ × ℚ)} {gs : List ℚ} (h : InB bounds gs) :
    gs.length = bounds.length :=
  h.length_eq.symm

theorem drawGenes_inB (bounds : List (ℚ × ℚ)) (hv : validBounds bounds) :
    ∀ r : RNG, InB bounds (drawGenes bounds r).1 := by
  induction bounds with
  | nil => intro r; exact List.Forall₂.nil
  | cons b bs ih =>
    intro r
    simp only [drawGenes]
    exact List.Forall₂.cons
      (inBound_genValue b _ (hv b (by simp)) (rngNext_lt r))
      (ih (fun x hx => hv x (by simp [hx])) _)

theorem mutateGenes_inB (bounds : List (ℚ × ℚ)) (hv : validBounds bounds) :
    ∀ (gs : List ℚ) (r : RNG), gs.length = bounds.length →
      InB bounds (mutateGenes bounds gs r).1 := by
  induction bounds with
  | nil =>
    intro gs r hlen
    have hg : gs = [] := List.length_eq_zero.mp (by simpa using hlen)
    subst hg
    exact List.Forall₂.nil
  | cons b bs ih =>
    intro gs r hlen
    match gs with
    | [] => simp at hlen
    | v :: vs =>
      simp only [mutateGenes]
      exact List.Forall₂.cons
        (inBound_clip b _ (hv b (by simp)))
        (ih (fun x hx => hv x (by simp [hx])) vs _ (by simpa using hlen))

theorem crossoverGenes_length (bounds : List (ℚ × ℚ)) :
    ∀ (xs ys : List ℚ) (r : RNG), xs.length = bounds.length →
      ys.length = bounds.length →
      (crossoverGenes bounds xs ys r).1.length = bounds.length := by
  induction bounds with
  | nil => intro xs ys r _ _; cases xs <;> cases ys <;> rfl
  | cons b bs ih =>
    intro xs ys r hx hy
    match xs, ys with
    | [], _ => simp at hx
    | _ :: _, [] => simp at hy
    | x :: xt, y :: yt =>
      simp only [crossoverGenes, List.length_cons]
      exact congrArg (· + 1) (ih xt yt _ (by simpa using hx) (by simpa using hy))

theorem getD_mem_or {α : Type} (l : List α) (n : Nat) (d : α) :
    l.getD n d = d ∨ l.getD n d ∈ l := by
  induction l generalizing n with
  | nil => exact Or.inl rfl
  | cons a t ih =>
    cases n with
    | zero => exact Or.inr (by simp)
    | succ m =>
      rcases ih m with h | h
      · exact Or.inl (by simpa using h)
      · refine Or.inr ?_
        rw [List.getD_cons_succ]
        exact List.mem_cons_of_mem a h

theorem getD_mem_cons {α : Type} (p : α) (t : List α) (n : Nat) :
    (p :: t).getD n p ∈ p :: t := by
  rcases getD_mem_or (p :: t) n p with h | h
  · rw [h]; exact List.mem_cons_self p t
  · exact h

theorem tournamentSelect_spec (p : Individual) (ps : List Individual) (r : RNG) :
    ∃ q ∈ p :: ps, (tournamentSelect (p :: ps) r).1 = q.genes := by
  simp only [tournamentSelect, pickFitter]
  by_cases hc : ((p :: ps).getD ((rngNext r).1 % (p :: ps).length) p).fitness ≤
      ((p :: ps).getD ((rngNext (rngNext r).2).1 % (p :: ps).length) p).fitness
  · exact ⟨_, getD_mem_cons p ps _, by rw [if_pos hc]⟩
  · exact ⟨_, getD_mem_cons p ps _, by rw [if_neg hc]⟩

theorem makeChild_inB (bounds : List (ℚ × ℚ)) (pop : List Individual) (r : RNG)
    (hv : validBounds bounds) (hpop : ∀ i ∈ pop, InB bounds i.genes)
    (hne : pop ≠ []) : InB bounds (makeChild bounds pop r).1 := by
  match pop with
  | [] => exact absurd rfl hne
  | p :: ps =>
    obtain ⟨q1, hq1, he1⟩ := tournamentSelect_spec p ps r
    obtain ⟨q2, hq2, he2⟩ :=
      tournamentSelect_spec p ps (tournamentSelect (p :: ps) r).2
    unfold makeChild
    apply mutateGenes_inB bounds hv
    apply crossoverGenes_length bounds
    · rw [he1]; exact InB_length (hpop q1 hq1)
    · rw [he2]; exact InB_length (hpop q2 hq2)

theorem varyPopulation_length (bounds : List (ℚ × ℚ)) (pop : List Individual) :
    ∀ (k : Nat) (r : RNG), (varyPopulation bounds pop k r).1.length = k := by
  intro k
  induction k with
  | zero => intro r; rfl
  | succ n ih =>
    intro r
    simp only [varyPopulation, List.length_cons, ih]

theorem varyPopulation_inB (bounds : List (ℚ × ℚ)) (pop : List Individual)
    (hv : validBounds bounds) (hpop : ∀ i ∈ pop, InB bounds i.genes)
    (hne : pop ≠ []) :
    ∀ (k : Nat) (r : RNG), ∀ g ∈ (varyPopulation bounds pop k r).1,
      InB bounds g := by
  intro k
  induction k with
  | zero => intro r g hg; simp [varyPopulation] at hg
  | succ n ih =>
    intro r g hg
    simp only [varyPopulation, List.mem_cons] at hg
    rcases hg with h | h
    · subst h; exact makeChild_inB bounds pop r hv hpop hne
    · exact ih _ g h

theorem initPopulation_length (bounds : List (ℚ × ℚ)) :
    ∀ (k : Nat) (r : RNG), (initPopulation bounds k r).1.length = k := by
  intro k
  induction k with
  | zero => intro r; rfl
  | succ n ih =>
    intro r
    simp only [initPopulation, List.length_cons, ih]

theorem initPopulation_inB (bounds : List (ℚ × ℚ)) (hv : validBounds bounds) :
    ∀ (k : Nat) (r : RNG), ∀ g ∈ (initPopulation bounds k r).1, InB bounds g := by
  intro k
  induction k with
  | zero => intro r g hg; simp [initPopulation] at hg
  | succ n ih =>
    intro r g hg
    simp only [initPopulation, List.mem_cons] at hg
    rcases hg with h | h
    · subst h; exact drawGenes_inB bounds hv r
    · exact ih _ g h

theorem evaluatePopulation_length (fitEval : List ℚ → Option ℚ)
    (pop : List (List ℚ)) :
    (evaluatePopulation fitEval pop).length = pop.length :=
  List.length_map pop (evaluateIndividual fitEval)

theorem evaluatePopulation_mem {fitEval : List ℚ → Option ℚ}
    {pop : List (List ℚ)} {i : Individual}
    (h : i ∈ evaluatePopulation fitEval pop) :
    ∃ g ∈ pop, i = evaluateIndividual fitEval g := by
  rcases List.mem_map.mp h with ⟨g, hg, he⟩
  exact ⟨g, hg, he.symm⟩

theorem evaluateIndividual_genes (fitEval : List ℚ → Option ℚ) (g : List ℚ) :
    (evaluateIndividual fitEval g).genes = g := rfl

/-! ### Hall-of-fame lemmas -/

/-- The ordering the hall of fame maintains: best (smallest) fitness first. -/
def fitnessLE (a b : Individual) : Prop := a.fitness ≤ b.fitness

theorem hofInsert_length (i : Individual) (l : List Individual) :
    (hofInsert i l).length = l.length + 1 := by
  induction l with
  | nil => rfl
  | cons hd tl ih =>
    rw [hofInsert]
    by_cases hc : i.fitness < hd.fitness
    · rw [if_pos hc]; simp
    · rw [if_neg hc]; simp [ih]

theorem hofInsert_ne (i : Individual) (l : List Individual) :
    hofInsert i l ≠ [] := by
  intro he
  have h := hofInsert_length i l
  rw [he] at h
  simp at h

theorem hofInsert_mem (i : Individual) (l : List Individual) (x : Individual) :
    x ∈ hofInsert i l → x = i ∨ x ∈ l := by
  induction l with
  | nil =>
    intro h
    simp [hofInsert] at h
    exact Or.inl h
  | cons hd tl ih =>
    intro h
    rw [hofInsert] at h
    by_cases hc : i.fitness < hd.fitness
    · rw [if_pos hc] at h
      rcases List.mem_cons.mp h with he | hm
      · exact Or.inl he
      · exact Or.inr hm
    · rw [if_neg hc] at h
      rcases List.mem_cons.mp h with he | hm
      · exact Or.inr (by simp [he])
      · rcases ih hm with he2 | hm2
        · exact Or.inl he2
        · exact Or.inr (List.mem_cons_of_mem hd hm2)

theorem hofInsert_pairwise (i : Individual) (l : List Individual)
    (h : l.Pairwise fitnessLE) : (hofInsert i l).Pairwise fitnessLE := by
  induction l with
  | nil => simp [hofInsert, fitnessLE]
  | cons hd tl ih =>
    rw [hofInsert]
    by_cases hc : i.fitness < hd.fitness
    · rw [if_pos hc]
      refine List.Pairwise.cons ?_ h
      intro x hx
      rcases List.mem_cons.mp hx with he | hm
      · subst he; exact le_of_lt hc
      · exact le_trans (le_of_lt hc) (List.rel_of_pairwise_cons h hm)
    · rw [if_neg hc]
      refine List.Pairwise.cons ?_ (ih (List.Pairwise.of_cons h))
      intro x hx
      rcases hofInsert_mem i tl x hx with he | hm
      · subst he; exact le_of_not_lt hc
      · exact List.rel_of_pairwise_cons h hm

theorem hofInsert_best_le (i : Individual) (l : List Individual) :
    hofBestFit (hofInsert i l) ≤ i.fitness := by
  cases l with
  | nil => simp [hofInsert, hofBestFit]
  | cons hd tl =>
    rw [hofInsert]
    by_cases hc : i.fitness < hd.fitness
    · rw [if_pos hc]; simp [hofBestFit]
    · rw [if_neg hc]
      simp only [hofBestFit]
      exact le_of_not_lt hc

theorem hofInsert_best_mono (i : Individual) (l : List Individual) (h : l ≠ []) :
    hofBestFit (hofInsert i l) ≤ hofBestFit l := by
  cases l with
  | nil => exact absurd rfl h
  | cons hd tl =>
    rw [hofInsert]
    by_cases hc : i.fitness < hd.fitness
    · rw [if_pos hc]
      simp only [hofBestFit]
      exact le_of_lt hc
    · rw [if_neg hc]
      simp [hofBestFit]

theorem hofFold_length (gen : List Individual) :
    ∀ hof : List Individual,
      (gen.foldl (fun acc j => hofInsert j acc) hof).length =
        hof.length + gen.length := by
  induction gen with
  | nil => intro hof; simp
  | cons g gs ih =>
    intro hof
    simp only [List.foldl_cons]
    rw [ih (hofInsert g hof), hofInsert_length]
    simp only [List.length_cons]
    omega

theorem hofFold_mem (gen : List Individual) :
    ∀ (hof : List Individual) (x : Individual),
      x ∈ gen.foldl (fun acc j => hofInsert j acc) hof → x ∈ hof ∨ x ∈ gen := by
  induction gen with
  | nil => intro hof x h; exact Or.inl (by simpa using h)
  | cons g gs ih =>
    intro hof x h
    simp only [List.foldl_cons] at h
    rcases ih (hofInsert g hof) x h with h2 | h2
    · rcases hofInsert_mem g hof x h2 with he | hm
      · exact Or.inr (by simp [he])
      · exact Or.inl hm
    · exact Or.inr (List.mem_cons_of_mem g h2)

theorem hofFold_pairwise (gen : List Individual) :
    ∀ hof : List Individual, hof.Pairwise fitnessLE →
      (gen.foldl (fun acc j => hofInsert j acc) hof).Pairwise fitnessLE := by
  induction gen with
  | nil => intro hof h; simpa using h
  | cons g gs ih =>
    intro hof h
    simp only [List.foldl_cons]
    exact ih _ (hofInsert_pairwise g hof h)

theorem hofFold_ne (gen hof : List Individual) (h : hof ≠ [] ∨ gen ≠ []) :
    gen.foldl (fun acc j => hofInsert j acc) hof ≠ [] := by
  intro he
  have hl := hofFold_length gen hof
  rw [he] at hl
  simp only [List.length_nil] at hl
  rcases h with h1 | h1
  · exact h1 (List.length_eq_zero.mp (by omega))
  · exact h1 (List.length_eq_zero.mp (by omega))

theorem hofFold_best_mono (gen : List Individual) :
    ∀ hof : List Individual, hof ≠ [] →
      hofBestFit (gen.foldl (fun acc j => hofInsert j acc) hof) ≤
        hofBestFit hof := by
  induction gen with
  | nil => intro hof _; simp
  | cons g gs ih =>
    intro hof hne
    simp only [List.foldl_cons]
    exact le_trans (ih (hofInsert g hof) (hofInsert_ne g hof))
      (hofInsert_best_mono g hof hne)

theorem hofFold_best_le_gen (gen : List Individual) :
    ∀ hof : List Individual, ∀ i ∈ gen,
      hofBestFit (gen.foldl (fun acc j => hofInsert j acc) hof) ≤ i.fitness := by
  induction gen with
  | nil => intro hof i hi; simp at hi
  | cons g gs ih =>
    intro hof i hi
    simp only [List.foldl_cons]
    rcases List.mem_cons.mp hi with he | hm
    · subst he
      exact le_trans
        (hofFold_best_mono gs (hofInsert i hof) (hofInsert_ne i hof))
        (hofInsert_best_le i hof)
    · exact ih (hofInsert g hof) i hm

theorem hofBestFit_take (cap : Nat) (l : List Individual) (h : 1 ≤ cap) :
    hofBestFit (l.take cap) = hofBestFit l := by
  cases l with
  | nil => simp
  | cons hd tl =>
    cases cap with
    | zero => omega
    | succ n => simp [hofBestFit]

theorem take_ne_nil (cap : Nat) (l : List Individual) (h : 1 ≤ cap)
    (hne : l ≠ []) : l.take cap ≠ [] := by
  cases l with
  | nil => exact absurd rfl hne
  | cons hd tl =>
    cases cap with
    | zero => omega
    | succ n => simp

theorem hofUpdate_length (cap : Nat) (hof gen : List Individual) :
    (hofUpdate cap hof gen).length = min cap (hof.length + gen.length) := by
  unfold hofUpdate
  rw [List.length_take, hofFold_length]

theorem hofUpdate_le_cap (cap : Nat) (hof gen : List Individual) :
    (hofUpdate cap hof gen).length ≤ cap := by
  rw [hofUpdate_length]
  exact min_le_left _ _

theorem hofUpdate_mem (cap : Nat) (hof gen : List Individual) (x : Individual)
    (h : x ∈ hofUpdate cap hof gen) : x ∈ hof ∨ x ∈ gen :=
  hofFold_mem gen hof x ((List.take_sublist _ _).subset h)

theorem hofUpdate_pairwise (cap : Nat) (hof gen : List Individual)
    (h : hof.Pairwise fitnessLE) : (hofUpdate cap hof gen).Pairwise fitnessLE :=
  List.Pairwise.sublist (List.take_sublist _ _) (hofFold_pairwise gen hof h)

theorem hofUpdate_ne (cap : Nat) (hof gen : List Individual) (hc : 1 ≤ cap)
    (h : hof ≠ [] ∨ gen ≠ []) : hofUpdate cap hof gen ≠ [] :=
  take_ne_nil cap _ hc (hofFold_ne gen hof h)

theorem hofUpdate_best_mono (cap : Nat) (hof gen : List Individual)
    (hc : 1 ≤ cap) (hne : hof ≠ []) :
    hofBestFit (hofUpdate cap hof gen) ≤ hofBestFit hof := by
  unfold hofUpdate
  rw [hofBestFit_take cap _ hc]
  exact hofFold_best_mono gen hof hne

theorem hofUpdate_best_le_gen (cap : Nat) (hof gen : List Individual)
    (hc : 1 ≤ cap) : ∀ i ∈ gen, hofBestFit (hofUpdate cap hof gen) ≤ i.fitness := by
  intro i hi
  unfold hofUpdate
  rw [hofBestFit_take cap _ hc]
  exact hofFold_best_le_gen gen hof i hi

/-! ### The generation-loop invariant -/

theorem evaluateIndividual_fit (fitEval : List ℚ → Option ℚ) (g : List ℚ) :
    (∃ v, fitEval ((evaluateIndividual fitEval g).genes) = some v ∧
      (evaluateIndividual fitEval g).fitness = v) ∨
    (fitEval ((evaluateIndividual fitEval g).genes) = none ∧
      (evaluateIndividual fitEval g).fitness = sentinelFitness) := by
  cases hfg : fitEval g with
  | none =>
    right
    exact ⟨hfg, by simp [evaluateIndividual, hfg]⟩
  | some v =>
    left
    exact ⟨v, hfg, by simp [evaluateIndividual, hfg]⟩

theorem chain'_append_singleton {α : Type} (R : α → α → Prop) (l : List α)
    (a : α) (hl : l.Chain' R) (hlast : ∀ x ∈ l.getLast?, R x a) :
    (l ++ [a]).Chain' R := by
  rw [List.chain'_append]
  refine ⟨hl, List.chain'_singleton a, ?_⟩
  intro x hx y hy
  simp only [List.head?_cons, Option.mem_def, Option.some.injEq] at hy
  subst hy
  exact hlast x hx

/-- The invariant the optimiser's loop state maintains: populations of the
configured size and inside the bounds, a sorted bounded hall of fame
holding the best evaluated individual, a monotone statistics log, and a
history of individuals whose fitness is the evaluator's output or the
sentinel. -/
structure LoopInv (fitEval : List ℚ → Option ℚ) (cfg : OptConfig)
    (st : LoopState) : Prop where
  pendLen : st.pending.length = popN cfg
  pendInB : ∀ g ∈ st.pending, InB cfg.bounds g
  popInB : ∀ i ∈ st.population, InB cfg.bounds i.genes
  histInB : ∀ i ∈ st.history, InB cfg.bounds i.genes
  hofInB : ∀ i ∈ st.hof, InB cfg.bounds i.genes
  hofSorted : st.hof.Pairwise fitnessLE
  hofCap : st.hof.length ≤ cfg.hof_capacity
  hofMem : ∀ i ∈ st.hof, i ∈ st.history
  hofHist : 1 ≤ cfg.hof_capacity →
    (st.history ≠ [] → st.hof ≠ []) ∧
    ∀ i ∈ st.history, hofBestFit st.hof ≤ i.fitness
  histLen : st.history.length = st.gen * popN cfg
  histFit : ∀ i ∈ st.history,
    (∃ v, fitEval i.genes = some v ∧ i.fitness = v) ∨
    (fitEval i.genes = none ∧ i.fitness = sentinelFitness)
  popLen : 1 ≤ st.gen → st.population.length = popN cfg
  logLen : st.logbook.length = st.gen
  logMono : (st.logbook.map StatsRecord.hofBest).Chain' (fun a b => b ≤ a)
  logLast : ∀ s ∈ st.logbook.getLast?, s.hofBest = hofBestFit st.hof ∧
    s.hofSize = st.hof.length
  logRec : ∀ s ∈ st.logbook, s.hofSize ≤ cfg.hof_capacity ∧
    s.genSize = popN cfg
  logSizeMono : (st.logbook.map StatsRecord.hofSize).Chain' (fun a b => a ≤ b)

theorem loopInv_init (fitEval : List ℚ → Option ℚ) (cfg : OptConfig)
    (hv : validBounds cfg.bounds) : LoopInv fitEval cfg (initState cfg) :=
  { pendLen := initPopulation_length cfg.bounds (popN cfg) ⟨cfg.seed⟩
    pendInB := initPopulation_inB cfg.bounds hv (popN cfg) ⟨cfg.seed⟩
    popInB := by intro i hi; simp [initState] at hi
    histInB := by intro i hi; simp [initState] at hi
    hofInB := by intro i hi; simp [initState] at hi
    hofSorted := List.Pairwise.nil
    hofCap := by simp [initState]
    hofMem := by intro i hi; simp [initState] at hi
    hofHist := by
      intro _
      refine ⟨fun h => absurd rfl h, ?_⟩
      intro i hi
      simp [initState] at hi
    histLen := by simp [initState]
    histFit := by intro i hi; simp [initState] at hi
    popLen := by intro h; simp [initState] at h
    logLen := by simp [initState]
    logMono := by simp [initState]
    logLast := by intro s hs; simp [initState] at hs
    logRec := by intro s hs; simp [initState] at hs
    logSizeMono := by simp [initState] }

theorem popN_pos (cfg : OptConfig) (h : 0 < cfg.offspring_size) :
    1 ≤ popN cfg := by
  unfold popN
  omega

theorem validateConfig_ok_iff (cfg : OptConfig) :
    validateConfig cfg = .ok () ↔
      0 < cfg.offspring_size ∧ validBounds cfg.bounds ∧
        cfg.param_names = cfg.evaluator_param_names := by
  unfold validateConfig
  by_cases h1 : cfg.offspring_size ≤ 0
  · rw [if_pos h1]
    constructor
    · intro h; exact absurd h (by simp)
    · rintro ⟨h, _, _⟩; omega
  · rw [if_neg h1]
    by_cases h2 : ∃ b ∈ cfg.bounds, b.2 < b.1
    · rw [if_pos h2]
      constructor
      · intro h; exact absurd h (by simp)
      · rintro ⟨_, hb, _⟩
        obtain ⟨b, hbm, hlt⟩ := h2
        exact absurd (hb b hbm) (not_le.mpr hlt)
    · rw [if_neg h2]
      by_cases h3 : cfg.param_names = cfg.evaluator_param_names
      · rw [if_pos h3]
        constructor
        · intro _
          refine ⟨by omega, ?_, h3⟩
          intro b hb
          by_contra hc
          exact h2 ⟨b, hb, not_le.mp hc⟩
        · intro _; rfl
      · rw [if_neg h3]
        constructor
        · intro h; exact absurd h (by simp)
        · rintro ⟨_, _, he⟩; exact absurd he h3

theorem run_eq_of_valid (fitEval : List ℚ → Option ℚ) (cfg : OptConfig)
    (h : validateConfig cfg = .ok ()) :
    run fitEval cfg = .ok (runBody fitEval cfg) := by
  unfold run
  rw [h]

theorem run_ok_elim (fitEval : List ℚ → Option ℚ) (cfg : OptConfig)
    (res : RunResult) (h : run fitEval cfg = .ok res) :
    validateConfig cfg = .ok () ∧ res = runBody fitEval cfg := by
  unfold run at h
  cases hv : validateConfig cfg with
  | error e =>
    rw [hv] at h
    exact absurd h (by simp)
  | ok u =>
    cases u
    rw [hv] at h
    simp only [Except.ok.injEq] at h
    exact ⟨rfl, h.symm⟩

theorem run_error_of_invalid (fitEval : List ℚ → Option ℚ) (cfg : OptConfig)
    (e : ConfigError) (h : validateConfig cfg = .error e) :
    run fitEval cfg = .error e := by
  unfold run
  rw [h]

theorem loopInv_step (fitEval : List ℚ → Option ℚ) (cfg : OptConfig)
    (st : LoopState) (hv : validBounds cfg.bounds) (hp : 1 ≤ popN cfg)
    (inv : LoopInv fitEval cfg st) :
    LoopInv fitEval cfg (generationStep fitEval cfg st) := by
  obtain ⟨pendLen, pendInB, popInB, histInB, hofInB, hofSorted, hofCap, hofMem,
    hofHist, histLen, histFit, popLen, logLen, logMono, logLast, logRec,
    logSizeMono⟩ := inv
  have hElen : (evaluatePopulation fitEval st.pending).length = popN cfg := by
    rw [evaluatePopulation_length, pendLen]
  have hEne : evaluatePopulation fitEval st.pending ≠ [] := by
    intro h
    rw [h] at hElen
    simp only [List.length_nil] at hElen
    omega
  have hEInB : ∀ i ∈ evaluatePopulation fitEval st.pending,
      InB cfg.bounds i.genes := by
    intro i hi
    obtain ⟨g, hg, he⟩ := evaluatePopulation_mem hi
    rw [he]
    exact pendInB g hg
  have hH2mono : ∀ s ∈ st.logbook.getLast?,
      hofBestFit (hofUpdate cfg.hof_capacity st.hof
        (evaluatePopulation fitEval st.pending)) ≤ s.hofBest := by
    intro s hs
    rw [(logLast s hs).1]
    by_cases hcap : 1 ≤ cfg.hof_capacity
    · have hlogne : st.logbook ≠ [] := by
        intro h
        rw [h] at hs
        simp at hs
      have hgen1 : 1 ≤ st.gen := by
        rcases Nat.eq_zero_or_pos st.gen with h0 | h1
        · rw [h0] at logLen
          exact absurd (List.length_eq_zero.mp logLen) hlogne
        · exact h1
      have hhistne : st.history ≠ [] := by
        intro h
        rw [h] at histLen
        simp only [List.length_nil] at histLen
        have hm : 1 * 1 ≤ st.gen * popN cfg := Nat.mul_le_mul hgen1 hp
        omega
      exact hofUpdate_best_mono _ _ _ hcap ((hofHist hcap).1 hhistne)
    · have hcap0 : cfg.hof_capacity = 0 := by omega
      have hhof : st.hof = [] :=
        List.length_eq_zero.mp (Nat.le_zero.mp (hcap0 ▸ hofCap))
      have hup : hofUpdate cfg.hof_capacity st.hof
          (evaluatePopulation fitEval st.pending) = [] := by
        rw [hcap0]
        unfold hofUpdate
        exact List.take_zero _
      rw [hup, hhof]
  have hH2size : ∀ s ∈ st.logbook.getLast?,
      s.hofSize ≤ (hofUpdate cfg.hof_capacity st.hof
        (evaluatePopulation fitEval st.pending)).length := by
    intro s hs
    rw [(logLast s hs).2, hofUpdate_length]
    exact le_min hofCap (Nat.le_add_right _ _)
  refine
    { pendLen := varyPopulation_length cfg.bounds _ (popN cfg) st.rng
      pendInB := varyPopulation_inB cfg.bounds _ hv hEInB hEne (popN cfg) st.rng
      popInB := hEInB
      histInB := ?histInB
      hofInB := ?hofInB
      hofSorted := hofUpdate_pairwise _ _ _ hofSorted
      hofCap := hofUpdate_le_cap _ _ _
      hofMem := ?hofMem
      hofHist := ?hofHist
      histLen := ?histLen
      histFit := ?histFit
      popLen := fun _ => hElen
      logLen := ?logLen
      logMono := ?logMono
      logLast := ?logLast
      logRec := ?logRec
      logSizeMono := ?logSizeMono }
  case histInB =>
    intro i hi
    rcases List.mem_append.mp hi with h | h
    · exact histInB i h
    · exact hEInB i h
  case hofInB =>
    intro i hi
    rcases hofUpdate_mem _ _ _ i hi with h | h
    · exact hofInB i h
    · exact hEInB i h
  case hofMem =>
    intro i hi
    rcases hofUpdate_mem _ _ _ i hi with h | h
    · exact List.mem_append_left _ (hofMem i h)
    · exact List.mem_append_right _ h
  case hofHist =>
    intro hcap
    constructor
    · intro _
      exact hofUpdate_ne _ _ _ hcap (Or.inr hEne)
    · intro i hi
      rcases List.mem_append.mp hi with h | h
      · have hhistne : st.history ≠ [] := List.ne_nil_of_mem h
        exact le_trans
          (hofUpdate_best_mono _ _ _ hcap ((hofHist hcap).1 hhistne))
          ((hofHist hcap).2 i h)
      · exact hofUpdate_best_le_gen _ _ _ hcap i h
  case histLen =>
    show (st.history ++ _).length = (st.gen + 1) * popN cfg
    rw [List.length_append, histLen, hElen]
    ring
  case histFit =>
    intro i hi
    rcases List.mem_append.mp hi with h | h
    · exact histFit i h
    · obtain ⟨g, _, he⟩ := evaluatePopulation_mem h
      rw [he]
      exact evaluateIndividual_fit fitEval g
  case logLen =>
    show (st.logbook ++ [_]).length = st.gen + 1
    rw [List.length_append, logLen]
    rfl
  case logMono =>
    show (List.map StatsRecord.hofBest (st.logbook ++ [_])).Chain' _
    rw [List.map_append]
    refine chain'_append_singleton _ _ _ logMono ?_
    intro x hx
    rw [List.getLast?_map, Option.mem_def, Option.map_eq_some'] at hx
    obtain ⟨s, hs, hxe⟩ := hx
    subst hxe
    exact hH2mono s hs
  case logLast =>
    intro s hs
    have hs2 : s ∈ (st.logbook ++
        [genStats (evaluatePopulation fitEval st.pending)
          (hofUpdate cfg.hof_capacity st.hof
            (evaluatePopulation fitEval st.pending))]).getLast? := hs
    rw [List.getLast?_concat, Option.mem_def, Option.some.injEq] at hs2
    subst hs2
    exact ⟨rfl, rfl⟩
  case logRec =>
    intro s hs
    rcases List.mem_append.mp hs with h | h
    · exact logRec s h
    · have he : s = genStats (evaluatePopulation fitEval st.pending)
          (hofUpdate cfg.hof_capacity st.hof
            (evaluatePopulation fitEval st.pending)) := by
        simpa using h
      subst he
      exact ⟨hofUpdate_le_cap _ _ _, hElen⟩
  case logSizeMono =>
    show (List.map StatsRecord.hofSize (st.logbook ++ [_])).Chain' _
    rw [List.map_append]
    refine chain'_append_singleton _ _ _ logSizeMono ?_
    intro x hx
    rw [List.getLast?_map, Option.mem_def, Option.map_eq_some'] at hx
    obtain ⟨s, hs, hxe⟩ := hx
    subst hxe
    exact hH2size s hs

theorem loopInv_iter (fitEval : List ℚ → Option ℚ) (cfg : OptConfig)
    (hv : validBounds cfg.bounds) (hp : 1 ≤ popN cfg) :
    ∀ (n : Nat) (st : LoopState), LoopInv fitEval cfg st →
      LoopInv fitEval cfg (runLoop fitEval cfg n st) := by
  intro n
  induction n with
  | zero => intro st h; exact h
  | succ m ih =>
    intro st h
    exact ih _ (loopInv_step fitEval cfg st hv hp h)

theorem runLoop_gen (fitEval : List ℚ → Option ℚ) (cfg : OptConfig) :
    ∀ (n : Nat) (st : LoopState),
      (runLoop fitEval cfg n st).gen = st.gen + n := by
  intro n
  induction n with
  | zero => intro st; rfl
  | succ m ih =>
    intro st
    show (runLoop fitEval cfg m (generationStep fitEval cfg st)).gen = _
    rw [ih]
    show st.gen + 1 + m = st.gen + (m + 1)
    omega

/-- The invariant holds at the end of every validated run. -/
theorem loopInv_run (fitEval : List ℚ → Option ℚ) (cfg : OptConfig)
    (h : validateConfig cfg = .ok ()) :
    LoopInv fitEval cfg (runLoop fitEval cfg cfg.max_ngen (initState cfg)) := by
  obtain ⟨hpos, hb, _⟩ := (validateConfig_ok_iff cfg).mp h
  exact loopInv_iter fitEval cfg hb (popN_pos cfg hpos) cfg.max_ngen
    (initState cfg) (loopInv_init fitEval cfg hb)

theorem validateConfig_error_of_bad (cfg : OptConfig)
    (h : (∃ b ∈ cfg.bounds, b.2 < b.1) ∨
      cfg.param_names ≠ cfg.evaluator_param_names ∨ cfg.offspring_size ≤ 0) :
    ∃ e, validateConfig cfg = .error e := by
  cases hv : validateConfig cfg with
  | error e => exact ⟨e, rfl⟩
  | ok u =>
    cases u
    obtain ⟨hpos, hb, hn⟩ := (validateConfig_ok_iff cfg).mp hv
    rcases h with h1 | h1 | h1
    · obtain ⟨b, hbm, hlt⟩ := h1
      exact absurd (hb b hbm) (not_le.mpr hlt)
    · exact absurd hn h1
    · omega

/-! ### The notebook's evaluator pipeline and configuration -/

/-- From the notebook (`ExpSyn_arbor.ipynb`): an eFELFeature carries its
name and Target Statistic (expected mean and expected standard
deviation). -/
structure eFELFeature where
  name : String
  efel_feature_name : String
  exp_mean : ℚ
  exp_std : ℚ
deriving DecidableEq

/-- Modelled from the spec: the normalized error a feature reports
(spec: "used only inside the Fitness Evaluator to compute normalized
error (e.g., |observed − mean| / std)"). -/
def featureScore (f : eFELFeature) (observed : ℚ) : ℚ :=
  |observed - f.exp_mean| / f.exp_std

/-- Modelled from the spec: a SingletonObjective wraps exactly one named
feature (spec: "For a 'singleton' objective, this is the identity on one
named error"); `bluepyopt.ephys.objectives` is not among the staged
source files. -/
structure SingletonObjective where
  name : String
  feature : eFELFeature
deriving DecidableEq

/-- Modelled from the spec: the Objective Calculator holds the ordered
list of configured objectives; `bluepyopt.ephys.objectivescalculators`
is not among the staged source files. -/
structure ObjectivesCalculator where
  objectives : List SingletonObjective
deriving DecidableEq

/-- From the notebook: the `maximum_voltage` eFELFeature with
`exp_mean = -50` and `exp_std = 0.1`. -/
def max_volt_feature : eFELFeature :=
  { name := "maximum_voltage"
    efel_feature_name := "maximum_voltage"
    exp_mean := -50
    exp_std := 1 / 10 }

/-- From the notebook: the single objective wrapping `max_volt_feature`,
named after it. -/
def max_volt_objective : SingletonObjective :=
  { name := max_volt_feature.name, feature := max_volt_feature }

/-- From the notebook: the ObjectivesCalculator holding exactly the one
objective `max_volt_objective`. -/
def score_calc : ObjectivesCalculator := { objectives := [max_volt_objective] }

/-- Modelled from the spec: an analytic test double for the Arbor
simulation and feature extraction behind the Fitness Evaluator
(`bluepyopt.ephys.simulators` is not among the staged source files; the
spec's design note prescribes injecting "a test double (pure function
over analytic formulas)"): the maximum voltage the simulated EPSP train
reaches for a given synaptic decay time constant. -/
def simMaxVoltage (tau : ℚ) : ℚ := -70 + 2 * tau

/-- Modelled from the spec: `CellEvaluator.evaluate_with_dicts`
(`bluepyopt.ephys.evaluators` is not among the staged source files): a
parameter-name → value mapping goes in, a feature-name → scalar-error
mapping comes out, one entry per configured objective. -/
def evaluate_with_dicts (param_values : String → ℚ) : List (String × ℚ) :=
  score_calc.objectives.map fun o =>
    (o.name, featureScore o.feature (simMaxVoltage (param_values "expsyn_tau")))

/-- Modelled from the spec: Pareto dominance between Fitness Vectors
("multi-objective: Pareto dominance"): componentwise ≤ with at least one
strict inequality. -/
def dominates (x y : List ℚ) : Prop :=
  List.Forall₂ (fun a b => a ≤ b) x y ∧ ∃ p ∈ x.zip y, p.1 < p.2

/-- From the notebook: the configuration of `optimisation.run(max_ngen=5)`:
single gene `expsyn_tau` with bounds `[(0, 50)]`, `offspring_size = 10`,
5 generations, a fixed seed, and the optimiser's bounded hall of fame
(capacity 10). -/
def notebookCfg : OptConfig :=
  { offspring_size := 10
    max_ngen := 5
    bounds := [(0, 50)]
    param_names := ["expsyn_tau"]
    evaluator_param_names := ["expsyn_tau"]
    hof_capacity := 10
    seed := 42 }

/-- Modelled from the spec: the notebook's evaluator as the optimiser
sees it: a one-gene Parameter Vector `[tau]` maps to the normalized
`maximum_voltage` error; any other shape is an evaluation failure. -/
def notebookEvaluator : List ℚ → Option ℚ
  | [tau] => some (featureScore max_volt_feature (simMaxVoltage tau))
  | _ => none

/-- The result of the notebook's optimisation run. -/
def notebookResult : RunResult := runBody notebookEvaluator notebookCfg

/-- A minimal valid configuration used to instantiate the general
theorems at a concrete input. -/
def tinyCfg : OptConfig :=
  { offspring_size := 1
    max_ngen := 1
    bounds := [(0, 1)]
    param_names := ["g"]
    evaluator_param_names := ["g"]
    hof_capacity := 2
    seed := 7 }

/-- A trivial always-succeeding evaluator. -/
def tinyEval : List ℚ → Option ℚ := fun _ => some 1

/-- An evaluator whose every call fails. -/
def failEval : List ℚ → Option ℚ := fun _ => none

/-- `tinyCfg` broken by a zero population size. -/
def badCfg : OptConfig := { tinyCfg with offspring_size := 0 }

/-- `tinyCfg` with the notebook's generation count. -/
def fiveCfg : OptConfig := { tinyCfg with max_ngen := 5 }

/-! ### The NeuroML export notebook's file naming -/

/-- The pair of files the NeuroML export step writes. -/
structure NeuroMLExport where
  cell_file : String
  net_file : String
deriving DecidableEq

/-- Modelled from the spec: `bluepyopt.neuroml.cell.create_neuroml_cell`
(not among the staged source files) writes, for a BluePyOpt cell named
`n`, a NeuroML cell file named `n ++ "_0_0.cell.nml"` — the notebook: "a
neuroml cell file named after the bluepyopt cell's name: Here,
`l5pc_0_0.cell.nml`", for the cell named `l5pc` (whose name the notebook
fixes by using `l5pc.net.nml` as the network filename); the exported
cell id carries a `_0_0` instantiation suffix, as the recorded trace
file `l5pc.Pop_l5pc_0_0.v.dat` corroborates — and a NeuroML network
file named `n ++ ".net.nml"` — the notebook: "a neuroml network file
containing the neuroml cell, named after the bluepyopt cell's name.
Here, `l5pc.net.nml`". -/
def create_neuroml_cell (cellName : String) : NeuroMLExport :=
  { cell_file := cellName ++ "_0_0.cell.nml"
    net_file := cellName ++ ".net.nml" }

/-- From the NeuroML notebook: the network filename the simulation setup
constructs from the cell's name. -/
def network_filename (cellName : String) : String := cellName ++ ".net.nml"

/-- From the NeuroML notebook: the LEMS simulation filename constructed
from the cell's name. -/
def lems_filename (cellName : String) : String := "LEMS_" ++ cellName ++ ".xml"

/-- The notebook evaluator only returns non-negative errors (a normalized
absolute deviation divided by a positive standard deviation). -/
theorem notebookEvaluator_nonneg (g : List ℚ) (v : ℚ)
    (h : notebookEvaluator g = some v) : 0 ≤ v := by
  match g with
  | [] => simp [notebookEvaluator] at h
  | [tau] =>
    simp only [notebookEvaluator, Option.some.injEq] at h
    rw [← h]
    unfold featureScore
    apply div_nonneg (abs_nonneg _)
    norm_num [max_volt_feature]
  | a :: b :: rest => simp [notebookEvaluator] at h

/-! ### The claims -/

/-- C1: for every run of the optimiser, every gene value of every
Parameter Vector ever produced (by initialization, crossover or
mutation) lies within its configured bound pair: for every evaluated
individual of the history, of the final population and of the hall of
fame, the genes satisfy the bound invariant; furthermore mutation of any
gene vector (in particular one with a gene exactly at its lower or upper
bound) lands inside the bounds after clipping, and clipping itself never
leaks out of a well-formed bound pair. -/
theorem bounds_invariant_run (fitEval : List ℚ → Option ℚ) (cfg : OptConfig)
    (res : RunResult) (h : run fitEval cfg = .ok res) :
    (∀ i ∈ res.history, InB cfg.bounds i.genes) ∧
    (∀ i ∈ res.population, InB cfg.bounds i.genes) ∧
    (∀ i ∈ res.hall_of_fame, InB cfg.bounds i.genes) ∧
    (∀ (gs : List ℚ) (r : RNG), gs.length = cfg.bounds.length →
      InB cfg.bounds (mutateGenes cfg.bounds gs r).1) ∧
    (∀ b ∈ cfg.bounds, ∀ v : ℚ, inBound b (clip b.1 b.2 v)) := by
  obtain ⟨hval, hres⟩ := run_ok_elim fitEval cfg res h
  obtain ⟨hpos, hb, hn⟩ := (validateConfig_ok_iff cfg).mp hval
  have inv := loopInv_run fitEval cfg hval
  subst hres
  refine ⟨inv.histInB, inv.popInB, inv.hofInB, ?_, ?_⟩
  · intro gs r hlen
    exact mutateGenes_inB cfg.bounds hb gs r hlen
  · intro b hbm v
    exact inBound_clip b v (hb b hbm)

/-- Witness for C1: the bound invariant instantiated at a concrete
configuration and evaluator. -/
theorem bounds_invariant_run_witness :
    (∀ i ∈ (runBody tinyEval tinyCfg).history, InB tinyCfg.bounds i.genes) ∧
    (∀ i ∈ (runBody tinyEval tinyCfg).population, InB tinyCfg.bounds i.genes) ∧
    (∀ i ∈ (runBody tinyEval tinyCfg).hall_of_fame,
      InB tinyCfg.bounds i.genes) ∧
    (∀ (gs : List ℚ) (r : RNG), gs.length = tinyCfg.bounds.length →
      InB tinyCfg.bounds (mutateGenes tinyCfg.bounds gs r).1) ∧
    (∀ b ∈ tinyCfg.bounds, ∀ v : ℚ, inBound b (clip b.1 b.2 v)) :=
  bounds_invariant_run tinyEval tinyCfg (runBody tinyEval tinyCfg) (by rfl)

/-- C2: determinism: with a fixed seed (part of the configuration) and a
deterministic evaluator, two runs with identical configuration produce
identical final Populations and identical Hall of Fame contents; the
model threads an explicit generator, so the run is a pure function of
evaluator and configuration. -/
theorem run_deterministic (fitEval : List ℚ → Option ℚ)
    (cfg₁ cfg₂ : OptConfig) (hcfg : cfg₁ = cfg₂) (res₁ res₂ : RunResult)
    (h₁ : run fitEval cfg₁ = .ok res₁) (h₂ : run fitEval cfg₂ = .ok res₂) :
    res₁.population = res₂.population ∧
      res₁.hall_of_fame = res₂.hall_of_fame := by
  subst hcfg
  rw [h₁] at h₂
  injection h₂ with h₂
  subst h₂
  exact ⟨rfl, rfl⟩

/-- Witness for C2 at a concrete configuration. -/
theorem run_deterministic_witness :
    (runBody tinyEval tinyCfg).population =
      (runBody tinyEval tinyCfg).population ∧
    (runBody tinyEval tinyCfg).hall_of_fame =
      (runBody tinyEval tinyCfg).hall_of_fame :=
  run_deterministic tinyEval tinyCfg tinyCfg rfl
    (runBody tinyEval tinyCfg) (runBody tinyEval tinyCfg) (by rfl) (by rfl)

/-- C3: the best (smallest) fitness recorded in the Hall of Fame is
non-increasing across successive generations: in the statistics log, the
`hofBest` entry of generation `g+1` is ≤ that of generation `g`
(`Chain'` states exactly the relation between every two successive
entries). -/
theorem hofBest_monotone (fitEval : List ℚ → Option ℚ) (cfg : OptConfig)
    (res : RunResult) (h : run fitEval cfg = .ok res) :
    (res.logbook.map StatsRecord.hofBest).Chain' (fun a b => b ≤ a) := by
  obtain ⟨hval, hres⟩ := run_ok_elim fitEval cfg res h
  subst hres
  exact (loopInv_run fitEval cfg hval).logMono

/-- Witness for C3 at a concrete configuration. -/
theorem hofBest_monotone_witness :
    ((runBody tinyEval fiveCfg).logbook.map StatsRecord.hofBest).Chain'
      (fun a b => b ≤ a) :=
  hofBest_monotone tinyEval fiveCfg (runBody tinyEval fiveCfg) (by rfl)

/-- C4: hall-of-fame invariants: after every generation's update its size
never exceeds the configured capacity (final hall and every logged
size), it is never empty once a generation has run, its head is the best
individual evaluated so far (its fitness is ≤ every evaluated fitness,
and it is one of the evaluated individuals), its size never shrinks
across generations (eviction only truncates at capacity), and on
termination it is ordered best-first. -/
theorem hof_invariants (fitEval : List ℚ → Option ℚ) (cfg : OptConfig)
    (res : RunResult) (h : run fitEval cfg = .ok res)
    (hcap : 1 ≤ cfg.hof_capacity) (hgen : 1 ≤ cfg.max_ngen) :
    res.hall_of_fame.length ≤ cfg.hof_capacity ∧
    (∀ s ∈ res.logbook, s.hofSize ≤ cfg.hof_capacity) ∧
    res.hall_of_fame ≠ [] ∧
    (∀ i ∈ res.history, hofBestFit res.hall_of_fame ≤ i.fitness) ∧
    (∀ i ∈ res.hall_of_fame, i ∈ res.history) ∧
    (res.logbook.map StatsRecord.hofSize).Chain' (fun a b => a ≤ b) ∧
    res.hall_of_fame.Pairwise fitnessLE := by
  obtain ⟨hval, hres⟩ := run_ok_elim fitEval cfg res h
  obtain ⟨hpos, hb, hn⟩ := (validateConfig_ok_iff cfg).mp hval
  have inv := loopInv_run fitEval cfg hval
  subst hres
  have hp := popN_pos cfg hpos
  have hgenf : (runLoop fitEval cfg cfg.max_ngen (initState cfg)).gen =
      cfg.max_ngen := by
    rw [runLoop_gen]
    simp [initState]
  have hhistne : (runLoop fitEval cfg cfg.max_ngen (initState cfg)).history ≠
      [] := by
    intro he
    have hl := inv.histLen
    rw [he, hgenf] at hl
    simp only [List.length_nil] at hl
    have hm : 1 * 1 ≤ cfg.max_ngen * popN cfg := Nat.mul_le_mul hgen hp
    omega
  exact ⟨inv.hofCap, fun s hs => (inv.logRec s hs).1,
    (inv.hofHist hcap).1 hhistne, (inv.hofHist hcap).2, inv.hofMem,
    inv.logSizeMono, inv.hofSorted⟩

/-- Witness for C4 at a concrete configuration. -/
theorem hof_invariants_witness :
    (runBody tinyEval tinyCfg).hall_of_fame.length ≤ tinyCfg.hof_capacity ∧
    (∀ s ∈ (runBody tinyEval tinyCfg).logbook,
      s.hofSize ≤ tinyCfg.hof_capacity) ∧
    (runBody tinyEval tinyCfg).hall_of_fame ≠ [] ∧
    (∀ i ∈ (runBody tinyEval tinyCfg).history,
      hofBestFit (runBody tinyEval tinyCfg).hall_of_fame ≤ i.fitness) ∧
    (∀ i ∈ (runBody tinyEval tinyCfg).hall_of_fame,
      i ∈ (runBody tinyEval tinyCfg).history) ∧
    ((runBody tinyEval tinyCfg).logbook.map StatsRecord.hofSize).Chain'
      (fun a b => a ≤ b) ∧
    (runBody tinyEval tinyCfg).hall_of_fame.Pairwise fitnessLE :=
  hof_invariants tinyEval tinyCfg (runBody tinyEval tinyCfg) (by rfl)
    (by decide) (by decide)

/-- C5: a failed evaluation never unwinds the generation loop: for every
evaluator — in particular one whose call fails for exactly one
individual — a validated run still completes every generation with the
configured number of individuals, the final population has the
configured size, and every individual whose evaluation failed carries
the sentinel worst-case fitness instead of aborting the run. -/
theorem evaluation_failure_recovered (fitEval : List ℚ → Option ℚ)
    (cfg : OptConfig) (res : RunResult) (h : run fitEval cfg = .ok res)
    (hgen : 1 ≤ cfg.max_ngen) :
    (∀ s ∈ res.logbook, s.genSize = popN cfg) ∧
    res.population.length = popN cfg ∧
    (∀ i ∈ res.history, fitEval i.genes = none →
      i.fitness = sentinelFitness) := by
  obtain ⟨hval, hres⟩ := run_ok_elim fitEval cfg res h
  have inv := loopInv_run fitEval cfg hval
  subst hres
  have hgenf : (runLoop fitEval cfg cfg.max_ngen (initState cfg)).gen =
      cfg.max_ngen := by
    rw [runLoop_gen]
    simp [initState]
  refine ⟨fun s hs => (inv.logRec s hs).2, ?_, ?_⟩
  · apply inv.popLen
    rw [hgenf]
    exact hgen
  · intro i hi hnone
    rcases inv.histFit i hi with ⟨v, hv, _⟩ | ⟨_, hfit⟩
    · rw [hnone] at hv
      exact absurd hv (by simp)
    · exact hfit

/-- Witness for C5: with the failing evaluator and a population of one,
exactly one evaluator call fails per generation, and the run still
completes with sentinel fitnesses. -/
theorem evaluation_failure_recovered_witness :
    (∀ s ∈ (runBody failEval tinyCfg).logbook, s.genSize = popN tinyCfg) ∧
    (runBody failEval tinyCfg).population.length = popN tinyCfg ∧
    (∀ i ∈ (runBody failEval tinyCfg).history, failEval i.genes = none →
      i.fitness = sentinelFitness) :=
  evaluation_failure_recovered failEval tinyCfg (runBody failEval tinyCfg)
    (by rfl) (by decide)

/-- C6: configuration errors are fatal and precede all evaluation: for a
malformed bound pair, a mismatched parameter-name set or a non-positive
population size, the run fails with a `ConfigError`, and the error is
the same for every evaluator (so no individual is ever evaluated and no
optimiser state is produced); a validated configuration (with at least
one generation and a positive hall-of-fame capacity) instead completes
and returns a populated hall of fame. -/
theorem configuration_errors_fail_fast (fitEval : List ℚ → Option ℚ)
    (cfg : OptConfig) :
    ((∃ b ∈ cfg.bounds, b.2 < b.1) ∨
        cfg.param_names ≠ cfg.evaluator_param_names ∨
        cfg.offspring_size ≤ 0 →
      ∃ e, run fitEval cfg = .error e ∧
        ∀ fitEval2 : List ℚ → Option ℚ, run fitEval2 cfg = .error e) ∧
    (validateConfig cfg = .ok () → 1 ≤ cfg.max_ngen →
      1 ≤ cfg.hof_capacity →
      run fitEval cfg = .ok (runBody fitEval cfg) ∧
        (runBody fitEval cfg).hall_of_fame ≠ []) := by
  constructor
  · intro hbad
    obtain ⟨e, he⟩ := validateConfig_error_of_bad cfg hbad
    exact ⟨e, run_error_of_invalid fitEval cfg e he,
      fun f2 => run_error_of_invalid f2 cfg e he⟩
  · intro hval hgen hcap
    refine ⟨run_eq_of_valid fitEval cfg hval, ?_⟩
    have inv := loopInv_run fitEval cfg hval
    obtain ⟨hpos, hb, hn⟩ := (validateConfig_ok_iff cfg).mp hval
    have hp := popN_pos cfg hpos
    have hgenf : (runLoop fitEval cfg cfg.max_ngen (initState cfg)).gen =
        cfg.max_ngen := by
      rw [runLoop_gen]
      simp [initState]
    have hhistne : (runLoop fitEval cfg cfg.max_ngen
        (initState cfg)).history ≠ [] := by
      intro he
      have hl := inv.histLen
      rw [he, hgenf] at hl
      simp only [List.length_nil] at hl
      have hm : 1 * 1 ≤ cfg.max_ngen * popN cfg := Nat.mul_le_mul hgen hp
      omega
    exact (inv.hofHist hcap).1 hhistne

/-- Witness for C6: a zero population size fails fast with the same error
for every evaluator, and the valid tiny configuration completes with a
populated hall of fame. -/
theorem configuration_errors_fail_fast_witness :
    (∃ e, run tinyEval badCfg = .error e ∧
      ∀ fitEval2 : List ℚ → Option ℚ, run fitEval2 badCfg = .error e) ∧
    (run tinyEval tinyCfg = .ok (runBody tinyEval tinyCfg) ∧
      (runBody tinyEval tinyCfg).hall_of_fame ≠ []) :=
  ⟨(configuration_errors_fail_fast tinyEval badCfg).1
      (Or.inr (Or.inr (by decide))),
    (configuration_errors_fail_fast tinyEval tinyCfg).2 (by rfl)
      (by decide) (by decide)⟩

/-- C7: for every configured maximum generation count the loop reaches
the terminated state exactly when the generation counter reaches it: a
validated run performs exactly `max_ngen` generation cycles (so at most
`max_ngen`), the statistics log has one record per generation, and the
run returns the final population, hall of fame, statistics log and
history in its `RunResult`. -/
theorem generation_loop_terminates (fitEval : List ℚ → Option ℚ)
    (cfg : OptConfig) (res : RunResult) (h : run fitEval cfg = .ok res) :
    res.generations = cfg.max_ngen ∧
    res.logbook.length = cfg.max_ngen ∧
    res.logbook.length ≤ cfg.max_ngen := by
  obtain ⟨hval, hres⟩ := run_ok_elim fitEval cfg res h
  have inv := loopInv_run fitEval cfg hval
  subst hres
  have hgenf : (runLoop fitEval cfg cfg.max_ngen (initState cfg)).gen =
      cfg.max_ngen := by
    rw [runLoop_gen]
    simp [initState]
  have hlog := inv.logLen
  rw [hgenf] at hlog
  exact ⟨hgenf, hlog, le_of_eq hlog⟩

/-- Witness for C7: `max_ngen = 5` terminates after exactly (hence at
most) 5 generations. -/
theorem generation_loop_terminates_witness :
    (runBody tinyEval fiveCfg).generations = fiveCfg.max_ngen ∧
    (runBody tinyEval fiveCfg).logbook.length = fiveCfg.max_ngen ∧
    (runBody tinyEval fiveCfg).logbook.length ≤ fiveCfg.max_ngen :=
  generation_loop_terminates tinyEval fiveCfg (runBody tinyEval fiveCfg)
    (by rfl)

/-- C8: the notebook's end-to-end configuration (single gene
`expsyn_tau`, bounds `[(0, 50)]`, target `maximum_voltage` = −50 ± 0.1,
population size 10, 5 generations, fixed seed): the run terminates and
returns a non-empty hall of fame, every hall-of-fame individual (in
particular the best one) has a single `tau` gene lying in `[0, 50]`, and
every recorded fitness is non-negative (a rational, hence finite). -/
theorem notebook_end_to_end :
    run notebookEvaluator notebookCfg = .ok notebookResult ∧
    notebookResult.generations = 5 ∧
    notebookResult.hall_of_fame ≠ [] ∧
    (∀ i ∈ notebookResult.hall_of_fame,
      ∃ t, i.genes = [t] ∧ 0 ≤ t ∧ t ≤ 50) ∧
    (∀ i ∈ notebookResult.hall_of_fame, 0 ≤ i.fitness) := by
  have hval : validateConfig notebookCfg = .ok () := by rfl
  have inv := loopInv_run notebookEvaluator notebookCfg hval
  have hgenf : (runLoop notebookEvaluator notebookCfg notebookCfg.max_ngen
      (initState notebookCfg)).gen = notebookCfg.max_ngen := by
    rw [runLoop_gen]
    simp [initState]
  have hhistne : (runLoop notebookEvaluator notebookCfg notebookCfg.max_ngen
      (initState notebookCfg)).history ≠ [] := by
    intro he
    have hl := inv.histLen
    rw [he, hgenf] at hl
    simp only [List.length_nil] at hl
    have h50 : notebookCfg.max_ngen * popN notebookCfg = 50 := by decide
    omega
  refine ⟨run_eq_of_valid notebookEvaluator notebookCfg hval, ?_,
    (inv.hofHist (by decide)).1 hhistne, ?_, ?_⟩
  · show (runLoop notebookEvaluator notebookCfg notebookCfg.max_ngen
      (initState notebookCfg)).gen = 5
    rw [hgenf]
    rfl
  · intro i hi
    have hInB := inv.hofInB i hi
    unfold InB at hInB
    rw [show notebookCfg.bounds = [((0 : ℚ), (50 : ℚ))] from rfl,
      List.forall₂_cons_left_iff] at hInB
    obtain ⟨v, vs, hb, htail, hgenes⟩ := hInB
    rw [List.forall₂_nil_left_iff] at htail
    subst htail
    have hb2 : (0 : ℚ) ≤ v ∧ v ≤ 50 := hb
    exact ⟨v, hgenes, hb2.1, hb2.2⟩
  · intro i hi
    have hmem := inv.hofMem i hi
    rcases inv.histFit i hmem with ⟨v, hv, hfit⟩ | ⟨_, hfit⟩
    · rw [hfit]
      exact notebookEvaluator_nonneg i.genes v hv
    · rw [hfit]
      unfold sentinelFitness
      norm_num

/-- C9: the notebook's evaluator is strictly single-objective: the
ObjectivesCalculator holds exactly one SingletonObjective named
`maximum_voltage`, `evaluate_with_dicts` always returns a mapping with
the single key `maximum_voltage`, every Fitness Vector has exactly one
component, and Pareto dominance between one-component fitness vectors is
exactly scalar comparison. -/
theorem singleton_objective_scalar :
    score_calc.objectives.length = 1 ∧
    score_calc.objectives.map SingletonObjective.name =
      ["maximum_voltage"] ∧
    (∀ p : String → ℚ,
      (evaluate_with_dicts p).map Prod.fst = ["maximum_voltage"]) ∧
    (∀ p : String → ℚ, (evaluate_with_dicts p).length = 1) ∧
    (∀ a b : ℚ, dominates [a] [b] ↔ a < b) := by
  refine ⟨rfl, rfl, fun p => rfl, fun p => rfl, ?_⟩
  intro a b
  constructor
  · rintro ⟨hle, p, hp, hlt⟩
    simp only [List.zip_cons_cons, List.zip_nil_right, List.mem_singleton]
      at hp
    subst hp
    exact hlt
  · intro hlt
    exact ⟨List.Forall₂.cons (le_of_lt hlt) List.Forall₂.nil,
      (a, b), by simp, hlt⟩

/-- C10 counterexample: the claim's cell-file name is refuted at the
notebook's own cell name: for the cell named `l5pc` the export writes
`l5pc_0_0.cell.nml` (the notebook's stated example), which is not
`"l5pc" ++ ".cell.nml"`. -/
theorem neuroml_cell_filename_counterexample :
    (create_neuroml_cell "l5pc").cell_file = "l5pc_0_0.cell.nml" ∧
    (create_neuroml_cell "l5pc").cell_file ≠ "l5pc" ++ ".cell.nml" :=
  ⟨rfl, by decide⟩

/-- C10 (amended): NeuroML export / simulation-setup naming round-trip:
for a cell named `n`, `create_neuroml_cell` writes the cell file
`n ++ "_0_0.cell.nml"` (the exported cell id carries a `_0_0`
instantiation suffix) and the network file `n ++ ".net.nml"`; the
network filename the NeuroML notebook later constructs (and the LEMS
filename `"LEMS_" ++ n ++ ".xml"`) names exactly the file the export
step produced. -/
theorem neuroml_filenames_round_trip :
    (∀ n : String, (create_neuroml_cell n).net_file = network_filename n) ∧
    (∀ n : String,
      (create_neuroml_cell n).cell_file = n ++ "_0_0.cell.nml") ∧
    (∀ n : String, network_filename n = n ++ ".net.nml") ∧
    (∀ n : String, lems_filename n = "LEMS_" ++ n ++ ".xml") :=
  ⟨fun _ => rfl, fun _ => rfl, fun _ => rfl, fun _ => rfl⟩

end BluePyOpt
